import Mathlib

/-!
A verification development for the Audio Spectrogram Viewer
(`Audio_Spectrogram_Viewer.py`).

The Python source is shallowly embedded: NumPy float arrays become
`List ℚ` (exact rational arithmetic in place of IEEE doubles), Python
ints become `ℤ`, and Python-level failures (uncaught exceptions) are
made explicit through `Except PyErr`.  The discrete Fourier transform
itself and the Hann window are external numeric collaborators whose
values never matter for the properties below, so the embedding is
parameterised over them (`fftAbs`, `hann`); the only facts about them
any theorem uses are their output lengths, which are stated as explicit
hypotheses mirroring `np.fft.fft` (length preserving) and `np.hanning`
(length `M`).
-/

/-- Python exceptions that the viewer's analysis pipeline can raise:
`NameError` (`freq` referenced before assignment in
`process_full_audio`), `IndexError` (`spectrogram.shape[1]` on the
1-D empty array produced by `np.array([]).T`), and `ValueError`
(`range()` arg 3 zero / invalid FFT length / broadcasting mismatch). -/
inductive PyErr
  | nameError
  | indexError
  | valueError
deriving DecidableEq, Repr

deriving instance DecidableEq for Except

/-- Python `int()` applied to a float/rational: truncation toward zero. -/
def pyInt (q : ℚ) : ℤ := if q < 0 then -(⌊-q⌋) else ⌊q⌋

/-- Length of Python `range(0, stop, step)` for `step ≠ 0`. -/
def pyRangeLen (stop step : ℤ) : ℕ :=
  if 0 < step then ((stop + step - 1) / step).toNat
  else ((-stop + -step - 1) / -step).toNat

/-- Python `range(0, stop, step)` for `step ≠ 0`, as the list of its
elements. -/
def pyRange0 (stop step : ℤ) : List ℤ :=
  (List.range (pyRangeLen stop step)).map (fun k : ℕ => (k : ℤ) * step)

/-- Python slice `l[a:b]`: negative bounds wrap around from the end,
out-of-range bounds are clamped. -/
def pySlice (l : List ℚ) (a b : ℤ) : List ℚ :=
  let n : ℤ := l.length
  let a2 := if a < 0 then max 0 (n + a) else min a n
  let b2 := if b < 0 then max 0 (n + b) else min b n
  (l.take b2.toNat).drop a2.toNat

/-- Embedding of `standard_fft_spectrogram(signal, sample_rate, window_size, step_size)`.

The frame matrix is kept in pre-transpose layout: a list of frames,
each frame the first `window_size // 2` magnitude bins.  The NumPy
matrix in the source is the transpose of this list, so its shape
`[frequencyBins][timeFrames]` corresponds to (frame length, list
length) here.  Failure modes are modelled exactly as the Python
control flow produces them:
`step_size == 0` → `ValueError` from `range`;
a non-positive `window_size` with a non-empty frame loop → `ValueError`
from `np.fft.fft` / broadcasting;
an empty frame list → `IndexError` from `np.array([]).T.shape[1]`. -/
def standard_fft_spectrogram (fftAbs : List ℚ → List ℚ) (hann : ℤ → List ℚ)
    (signal : List ℚ) (sample_rate : ℚ) (window_size step_size : ℤ) :
    Except PyErr (List (List ℚ) × List ℚ × List ℚ) :=
  if step_size = 0 then .error .valueError else
  let starts := pyRange0 ((signal.length : ℤ) - window_size) step_size
  if starts ≠ [] ∧ window_size ≤ 0 then .error .valueError else
  let frames := starts.map (fun s =>
    (fftAbs (List.zipWith (fun a b => a * b)
        (pySlice signal s (s + window_size)) (hann window_size))).take
      (window_size.toNat / 2))
  if frames = [] then .error .indexError else
  .ok (frames,
       (List.range frames.length).map
         (fun k : ℕ => (k : ℚ) * ((step_size : ℚ) / sample_rate)),
       (List.range (window_size.toNat / 2)).map
         (fun k : ℕ => (k : ℚ) * sample_rate / (window_size : ℚ)))

/-- The chunk loop of `process_full_audio`: iterates over the chunk
start indices, breaking at the first chunk shorter than a window, and
accumulates the horizontally stacked frames and the concatenated,
chunk-shifted time axes.  The final `return ... freq` raises
`NameError` when no chunk was processed (`freq` is never assigned). -/
def process_chunks (fftAbs : List ℚ → List ℚ) (hann : ℤ → List ℚ)
    (signal : List ℚ) (sample_rate : ℚ) (window_size step_size chunk_size : ℤ) :
    List ℤ → List (List ℚ) → List ℚ → Option (List ℚ) →
    Except PyErr (List (List ℚ) × List ℚ × List ℚ)
  | [], accS, accT, f? =>
    match f? with
    | none => .error .nameError
    | some f => .ok (accS, accT, f)
  | i :: rest, accS, accT, f? =>
    let chunk := pySlice signal i (i + chunk_size)
    if ((chunk.length : ℤ)) < window_size then
      match f? with
      | none => .error .nameError
      | some f => .ok (accS, accT, f)
    else
      match standard_fft_spectrogram fftAbs hann chunk sample_rate window_size step_size with
      | .error e => .error e
      | .ok (s, t, f) =>
        process_chunks fftAbs hann signal sample_rate window_size step_size chunk_size
          rest (accS ++ s) (accT ++ t.map (fun x => x + (i : ℚ) / sample_rate)) (some f)

/-- The chunk size `int(chunk_duration_sec * sample_rate)`. -/
def chunkSamples (chunk_duration_sec sample_rate : ℚ) : ℤ :=
  pyInt (chunk_duration_sec * sample_rate)

/-- Embedding of `process_full_audio(signal, sample_rate, window_size, step_size,
chunk_duration_sec)`.  A zero chunk size makes `range` raise
`ValueError`; a negative one yields an empty chunk loop and hence the
`NameError` of the unassigned `freq`. -/
def process_full_audio (fftAbs : List ℚ → List ℚ) (hann : ℤ → List ℚ)
    (signal : List ℚ) (sample_rate : ℚ) (window_size step_size : ℤ)
    (chunk_duration_sec : ℚ) :
    Except PyErr (List (List ℚ) × List ℚ × List ℚ) :=
  let cs := chunkSamples chunk_duration_sec sample_rate
  if cs = 0 then .error .valueError else
  process_chunks fftAbs hann signal sample_rate window_size step_size cs
    (pyRange0 (signal.length : ℤ) cs) [] [] none

/-- Number of rows of the transposed frame matrix (`spectrogram.shape[0]`
after `.T`): the common frame length. -/
def frequencyBins : List (List ℚ) → ℕ
  | [] => 0
  | fr :: _ => fr.length

/-- Number of columns of the transposed frame matrix
(`spectrogram.shape[1]` after `.T`). -/
def timeFrames (frames : List (List ℚ)) : ℕ := frames.length

/-- Total element count, `ndarray.size`, of the frame matrix. -/
def npSize (frames : List (List ℚ)) : ℕ := (frames.map List.length).sum

/-- User-visible error boxes (`QMessageBox.critical`). -/
inductive UiMsg
  | errNoFile
  | errPlayback
  | errSeek
deriving DecidableEq, Repr

/-- Outcome of `load_audio`. -/
inductive LoadOutcome
  | success
  | errAnalysis
  | errImage
  | errPygame
  | raised (e : PyErr)
deriving DecidableEq, Repr

/-- The mutable fields of `SpectrogramWindow` that the core logic
touches.  Files are identified by opaque numeric handles; the rendered
pixmap is tracked only by its presence (`has_image`), and the data
area by its `(x0, width)` fractions. -/
structure SessionState where
  audio_file : Option ℕ
  spectrogram : Option (List (List ℚ))
  time : Option (List ℚ)
  freq : Option (List ℚ)
  is_playing : Bool
  play_position : ℚ
  total_duration : ℚ
  image_width : ℤ
  position_buffer : List ℚ
  data_area : Option (ℚ × ℚ)
  zoom_factor : ℚ
  play_start_time : ℚ
  has_image : Bool
  slider : ℤ
deriving DecidableEq, Repr

/-- The `__init__` field values. -/
def initialState : SessionState where
  audio_file := none
  spectrogram := none
  time := none
  freq := none
  is_playing := false
  play_position := 0
  total_duration := 0
  image_width := 800
  position_buffer := []
  data_area := none
  zoom_factor := 1
  play_start_time := 0
  has_image := false
  slider := 0

/-- A `deque(maxlen=5)` append: the oldest entry is dropped once the
buffer holds 5 samples. -/
def pushPos (buf : List ℚ) (x : ℚ) : List ℚ :=
  (buf ++ [x]).drop (buf.length + 1 - 5)

/-- The smoothed position `sum(buffer) / len(buffer)`. -/
def bufMean (buf : List ℚ) : ℚ := buf.sum / (buf.length : ℚ)

/-- Embedding of `stop_playback`: guarded by `if self.audio_file:`. -/
def stop_playback (st : SessionState) : SessionState :=
  if st.audio_file ≠ none then
    { st with is_playing := false, play_position := 0, position_buffer := [],
              slider := 0 }
  else st

/-- Embedding of `update_play_position`, the 50 ms timer tick.  `now` is
`time.time()` and `busy` is `pygame.mixer.music.get_busy()`.  Painting
the marker line and autoscrolling mutate only widgets, not these
fields; the marker-column arithmetic is modelled separately by
`markerColumn`. -/
def update_play_position (st : SessionState) (now : ℚ) (busy : Bool) :
    SessionState :=
  if st.is_playing ∧ st.spectrogram ≠ none ∧ st.has_image then
    if busy then
      let raw := now - st.play_start_time
      if st.total_duration < raw then
        stop_playback { st with play_position := st.total_duration }
      else
        let buf := pushPos st.position_buffer raw
        let st1 := { st with position_buffer := buf, play_position := bufMean buf }
        if 0 < st1.total_duration then
          { st1 with slider := pyInt (st1.play_position / st1.total_duration * 1000) }
        else st1
    else stop_playback st
  else st

/-- Embedding of `toggle_playback`.  `trackStarted` models
`pygame.mixer.music.get_pos() != -1` and `playOk` whether the pygame
play/unpause call succeeds (its exception is caught before any field
assignment). -/
def toggle_playback (st : SessionState) (now : ℚ)
    (trackStarted playOk : Bool) : SessionState × Option UiMsg :=
  if st.audio_file = none then (st, some .errNoFile)
  else if st.is_playing then ({ st with is_playing := false }, none)
  else if playOk then
    if trackStarted then
      ({ st with play_start_time := now - st.play_position, is_playing := true }, none)
    else
      ({ st with play_start_time := now, position_buffer := [],
                 is_playing := true }, none)
  else (st, some .errPlayback)

/-- Embedding of `seek_position(value)`: slider values run 0–1000.  `seekOk` models
the pygame stop/load/play sequence succeeding; on its exception the
position and buffer have already been reassigned.  The trailing
`update_play_position()` call is included. -/
def seek_position (st : SessionState) (value : ℤ) (now : ℚ)
    (busy seekOk : Bool) : SessionState × Option UiMsg :=
  if st.audio_file ≠ none ∧ 0 < st.total_duration then
    let newPos := ((value : ℚ) / 1000) * st.total_duration
    let st1 := { st with play_position := newPos, position_buffer := [newPos] }
    if seekOk then
      let st2 := { st1 with play_start_time := now - newPos }
      (update_play_position st2 now busy, none)
    else (st1, some .errSeek)
  else (st, none)

/-- Embedding of `zoom_in`: multiply by 1.2, capped at 5.0; only with an image. -/
def zoom_in (st : SessionState) : SessionState :=
  if st.has_image then
    { st with zoom_factor := min (st.zoom_factor * (6/5)) 5 }
  else st

/-- Embedding of `zoom_out`: divide by 1.2 only while the factor exceeds 0.5; only
with an image. -/
def zoom_out (st : SessionState) : SessionState :=
  if st.has_image ∧ (1/2 : ℚ) < st.zoom_factor then
    { st with zoom_factor := st.zoom_factor / (6/5) }
  else st

/-- One zoom button press. -/
inductive ZoomAct
  | zin
  | zout
deriving DecidableEq, Repr

/-- Apply one zoom action. -/
def applyZoom (st : SessionState) : ZoomAct → SessionState
  | .zin => zoom_in st
  | .zout => zoom_out st

/-- Apply a sequence of zoom button presses. -/
def runZoom (st : SessionState) (acts : List ZoomAct) : SessionState :=
  acts.foldl applyZoom st

/-- Embedding of `load_audio` with the window size, hop size and chunk duration as
explicit parameters (the Python body fixes them to 1024, 512 and 4;
see `load_audio`).  The file path has already been chosen and read:
`signal`/`sample_rate` are what `read_audio_file` returned.
`dataArea` is the axis bounding box the plotting library reports, and
`pygameOk` whether `pygame.mixer.music.load` succeeds.  Note the
ordering faithful to the source: `self.audio_file` is assigned first,
and the engine results are assigned before the emptiness check. -/
def load_audio_params (fftAbs : List ℚ → List ℚ) (hann : ℤ → List ℚ)
    (window_size step_size : ℤ) (chunk_duration_sec : ℚ)
    (st : SessionState) (path : ℕ) (signal : List ℚ) (sample_rate : ℚ)
    (dataArea : ℚ × ℚ) (pygameOk : Bool) : SessionState × LoadOutcome :=
  let st1 := { st with audio_file := some path }
  match process_full_audio fftAbs hann signal sample_rate window_size step_size
      chunk_duration_sec with
  | .error e => (st1, .raised e)
  | .ok (S, T, F) =>
    let st2 := { st1 with spectrogram := some S, time := some T, freq := some F }
    if npSize S = 0 ∨ T = [] then (st2, .errAnalysis)
    else
      let total := T.getLastD 0
      let st3 := { st2 with
        total_duration := total
        image_width := max 800 (pyInt (500 * total / 10))
        zoom_factor := 1 }
      if npSize S = 0 ∨ T = [] ∨ F = [] then (st3, .errImage)
      else
        let st4 := { st3 with has_image := true, data_area := some dataArea,
                              slider := 0 }
        if pygameOk then (st4, .success)
        else ({ st4 with audio_file := none }, .errPygame)

/-- Embedding of `load_audio` as written: `window_size = 1024`, `step_size = 512`,
`chunk_duration_sec = 4`. -/
def load_audio (fftAbs : List ℚ → List ℚ) (hann : ℤ → List ℚ)
    (st : SessionState) (path : ℕ) (signal : List ℚ) (sample_rate : ℚ)
    (dataArea : ℚ × ℚ) (pygameOk : Bool) : SessionState × LoadOutcome :=
  load_audio_params fftAbs hann 1024 512 4 st path signal sample_rate
    dataArea pygameOk

/-- The scaled pixmap width `int(image_width * zoom_factor)`. -/
def scaledWidth (image_width : ℤ) (zoom_factor : ℚ) : ℤ :=
  pyInt ((image_width : ℚ) * zoom_factor)

/-- The marker pixel column computed in `update_play_position`:
`x_pos = int((play_position / max_time) * data_width_pixels +
data_x0_pixels)` with `data_width_pixels = scaledW * width` and
`data_x0_pixels = scaledW * x0`, then clamped by
`min(max(x_pos, 0), scaledW - 1)`. -/
def markerColumn (p maxTime x0 width : ℚ) (scaledW : ℤ) : ℤ :=
  min (max (pyInt (p / maxTime * ((scaledW : ℚ) * width) + (scaledW : ℚ) * x0)) 0)
    (scaledW - 1)

/-- The marker pixel column as the specification words it:
`x0*W + (p / maxTime) * (width*W)`, clamped to `[0, W-1]`, with the
zoomed width standing in for `W`. -/
def markerColumnSpec (p maxTime x0 width : ℚ) (scaledW : ℤ) : ℤ :=
  min (max (pyInt (x0 * (scaledW : ℚ) + p / maxTime * (width * (scaledW : ℚ)))) 0)
    (scaledW - 1)

/-- The autoscroll offset `clamp(markerX - viewport/2, 0, range)` of
`update_play_position` (kept for completeness of the viewport model). -/
def scrollOffset (markerX viewportW scaledW : ℤ) : ℤ :=
  min (max (pyInt ((markerX : ℚ) - (viewportW : ℚ) / 2)) 0) (scaledW - viewportW)

/-! ### Arithmetic facts about the Python helpers -/

/-- Basic bounds for the length of `range(0, stop, step)` with a
positive step: `stop ≤ n*step` and `(n-1)*step < stop`. -/
lemma pyRangeLen_spec (stop step : ℤ) (hstep : 0 < step) (hstop : 0 ≤ stop) :
    stop ≤ (pyRangeLen stop step : ℤ) * step ∧
      ((pyRangeLen stop step : ℤ) - 1) * step < stop := by
  have hne : step ≠ 0 := ne_of_gt hstep
  have ha : (0 : ℤ) ≤ stop + step - 1 := by omega
  have hq : (0 : ℤ) ≤ (stop + step - 1) / step := Int.ediv_nonneg ha (le_of_lt hstep)
  have hcast : ((pyRangeLen stop step : ℤ)) = (stop + step - 1) / step := by
    unfold pyRangeLen
    rw [if_pos hstep, Int.toNat_of_nonneg hq]
  have heuclid := Int.ediv_add_emod (stop + step - 1) step
  have hr0 : 0 ≤ (stop + step - 1) % step := Int.emod_nonneg _ hne
  have hr1 : (stop + step - 1) % step < step := Int.emod_lt_of_pos _ hstep
  constructor
  · nlinarith [hcast, heuclid, hr0, hr1]
  · nlinarith [hcast, heuclid, hr0, hr1]

lemma pyRangeLen_zero (step : ℤ) (hstep : 0 < step) : pyRangeLen 0 step = 0 := by
  unfold pyRangeLen
  rw [if_pos hstep]
  have : (0 + step - 1) / step = 0 :=
    Int.ediv_eq_zero_of_lt (by omega) (by omega)
  omega

lemma pyRangeLen_one (stop step : ℤ) (h1 : 1 ≤ stop) (h2 : stop ≤ step) :
    pyRangeLen stop step = 1 := by
  have hstep : 0 < step := by omega
  unfold pyRangeLen
  rw [if_pos hstep]
  have : stop + step - 1 = (stop - 1) + 1 * step := by ring
  rw [this, Int.add_mul_ediv_right _ _ (by omega : step ≠ 0),
    Int.ediv_eq_zero_of_lt (by omega) (by omega)]
  omega

lemma pyRangeLen_pos (stop step : ℤ) (hstep : 0 < step) (hstop : 0 < stop) :
    0 < pyRangeLen stop step := by
  rcases pyRangeLen_spec stop step hstep (le_of_lt hstop) with ⟨h1, _⟩
  by_contra h
  push_neg at h
  interval_cases (pyRangeLen stop step)
  simp at h1
  omega

lemma pyRange0_length (stop step : ℤ) :
    (pyRange0 stop step).length = pyRangeLen stop step := by
  unfold pyRange0
  rw [List.length_map, List.length_range]

lemma mem_pyRange0 (stop step s : ℤ) :
    s ∈ pyRange0 stop step ↔ ∃ k : ℕ, k < pyRangeLen stop step ∧ s = (k : ℤ) * step := by
  unfold pyRange0
  rw [List.mem_map]
  constructor
  · rintro ⟨k, hk, rfl⟩
    exact ⟨k, List.mem_range.mp hk, rfl⟩
  · rintro ⟨k, hk, rfl⟩
    exact ⟨k, List.mem_range.mpr hk, rfl⟩

/-- The length of a slice with non-negative bounds. -/
lemma pySlice_length (l : List ℚ) (a b : ℤ) (ha : 0 ≤ a) (hb : 0 ≤ b) :
    ((pySlice l a b).length : ℤ) = max 0 (min b (l.length : ℤ) - min a (l.length : ℤ)) := by
  simp only [pySlice, if_neg (by omega : ¬ a < 0), if_neg (by omega : ¬ b < 0),
    List.length_drop, List.length_take]
  omega

/-- Slicing from 0 beyond the end returns the whole list. -/
lemma pySlice_all (l : List ℚ) (b : ℤ) (hb : (l.length : ℤ) ≤ b) :
    pySlice l 0 b = l := by
  simp only [pySlice, if_neg (by omega : ¬ (0:ℤ) < 0), if_neg (by omega : ¬ b < 0)]
  have h1 : min b (l.length : ℤ) = (l.length : ℤ) := by omega
  have h2 : min (0:ℤ) (l.length : ℤ) = 0 := by omega
  rw [h1, h2]
  simp

/-! ### Smoothing-buffer lemmas -/

lemma pushPos_length (buf : List ℚ) (x : ℚ) :
    (pushPos buf x).length = min (buf.length + 1) 5 := by
  unfold pushPos
  simp only [List.length_drop, List.length_append, List.length_cons, List.length_nil]
  omega

lemma pushPos_ne_nil (buf : List ℚ) (x : ℚ) : pushPos buf x ≠ [] := by
  have h := pushPos_length buf x
  intro hnil
  rw [hnil] at h
  simp at h
  omega

lemma mem_pushPos (buf : List ℚ) (x y : ℚ) (h : y ∈ pushPos buf x) :
    y ∈ buf ∨ y = x := by
  unfold pushPos at h
  have h2 := List.drop_subset _ _ h
  rcases List.mem_append.mp h2 with h3 | h3
  · exact Or.inl h3
  · simp at h3
    exact Or.inr h3

lemma pushPos_full (a b c d e x : ℚ) :
    pushPos [a, b, c, d, e] x = [b, c, d, e, x] := by
  simp [pushPos]

lemma pushPos_five (buf : List ℚ) (t : ℚ) (h : buf.length ≤ 5) :
    pushPos (pushPos (pushPos (pushPos (pushPos buf t) t) t) t) t =
      List.replicate 5 t := by
  rcases buf with _ | ⟨a, _ | ⟨b, _ | ⟨c, _ | ⟨d, _ | ⟨e, _ | ⟨f, tl⟩⟩⟩⟩⟩⟩
  · simp [pushPos]
  · simp [pushPos]
  · simp [pushPos]
  · simp [pushPos]
  · simp [pushPos]
  · simp [pushPos]
  · exact absurd h (by simp)

lemma list_sum_le (l : List ℚ) (b : ℚ) (h : ∀ x ∈ l, x ≤ b) :
    l.sum ≤ (l.length : ℚ) * b := by
  induction l with
  | nil => simp
  | cons a tl ih =>
    simp only [List.sum_cons, List.length_cons]
    have h1 : a ≤ b := h a (by simp)
    have h2 : tl.sum ≤ (tl.length : ℚ) * b := ih (fun x hx => h x (by simp [hx]))
    push_cast
    nlinarith

lemma list_le_sum (l : List ℚ) (a : ℚ) (h : ∀ x ∈ l, a ≤ x) :
    (l.length : ℚ) * a ≤ l.sum := by
  induction l with
  | nil => simp
  | cons c tl ih =>
    simp only [List.sum_cons, List.length_cons]
    have h1 : a ≤ c := h c (by simp)
    have h2 : (tl.length : ℚ) * a ≤ tl.sum := ih (fun x hx => h x (by simp [hx]))
    push_cast
    nlinarith

lemma bufMean_bounds (l : List ℚ) (hne : l ≠ []) (a b : ℚ)
    (h : ∀ x ∈ l, a ≤ x ∧ x ≤ b) : a ≤ bufMean l ∧ bufMean l ≤ b := by
  have hlen : 0 < (l.length : ℚ) := by
    have := List.length_pos.mpr hne
    exact_mod_cast this
  unfold bufMean
  constructor
  · rw [le_div_iff₀ hlen]
    have := list_le_sum l a (fun x hx => (h x hx).1)
    linarith
  · rw [div_le_iff₀ hlen]
    have := list_sum_le l b (fun x hx => (h x hx).2)
    linarith

lemma bufMean_replicate_five (t : ℚ) : bufMean (List.replicate 5 t) = t := by
  unfold bufMean
  simp [List.sum_replicate]
  ring

/-! ### Zoom -/

lemma zoom_step_bounds (st : SessionState) (a : ZoomAct)
    (h1 : 5/12 < st.zoom_factor) (h2 : st.zoom_factor ≤ 5) :
    5/12 < (applyZoom st a).zoom_factor ∧ (applyZoom st a).zoom_factor ≤ 5 := by
  cases a with
  | zin =>
    unfold applyZoom zoom_in
    by_cases hi : st.has_image
    · simp only [hi, if_true]
      constructor
      · apply lt_min
        · nlinarith
        · norm_num
      · exact min_le_right _ _
    · simp only [hi, if_false]
      exact ⟨h1, h2⟩
  | zout =>
    unfold applyZoom zoom_out
    by_cases hg : st.has_image ∧ (1/2 : ℚ) < st.zoom_factor
    · rw [if_pos hg]
      have hz := hg.2
      have he : st.zoom_factor / (6/5) = st.zoom_factor * (5/6) := by ring
      simp only [he]
      constructor
      · nlinarith
      · nlinarith
    · rw [if_neg hg]
      exact ⟨h1, h2⟩

lemma runZoom_bounds (acts : List ZoomAct) (st : SessionState)
    (h1 : 5/12 < st.zoom_factor) (h2 : st.zoom_factor ≤ 5) :
    5/12 < (runZoom st acts).zoom_factor ∧ (runZoom st acts).zoom_factor ≤ 5 := by
  induction acts generalizing st with
  | nil => exact ⟨h1, h2⟩
  | cons a tl ih =>
    have hstep := zoom_step_bounds st a h1 h2
    exact ih (applyZoom st a) hstep.1 hstep.2

/-- C4 (amended): starting from the default factor 1.0, every zoom-in
multiplies by 1.2 but is capped at 5.0, and every zoom-out divides by
1.2 only while the factor exceeds 0.5; consequently repeated zoom-in
never exceeds 5.0, and the factor always stays in the interval
(0.5/1.2, 5.0] — in particular it can fall below 0.5, but never below
0.5/1.2 ≈ 0.4167. -/
theorem zoom_factor_stays_in_amended_bounds (st : SessionState)
    (acts : List ZoomAct) (hz : st.zoom_factor = 1) :
    5/12 < (runZoom st acts).zoom_factor ∧ (runZoom st acts).zoom_factor ≤ 5 :=
  runZoom_bounds acts st (by rw [hz]; norm_num) (by rw [hz]; norm_num)

/-- Witness for the amended C4 theorem at a concrete input. -/
theorem zoom_factor_stays_in_amended_bounds_witness :
    5/12 < (runZoom { initialState with has_image := true }
        [ZoomAct.zin, ZoomAct.zout]).zoom_factor ∧
      (runZoom { initialState with has_image := true }
        [ZoomAct.zin, ZoomAct.zout]).zoom_factor ≤ 5 :=
  zoom_factor_stays_in_amended_bounds { initialState with has_image := true }
    [ZoomAct.zin, ZoomAct.zout] rfl

/-- C4 (counterexample): with an image loaded and the default factor
1.0, four consecutive zoom-out actions drive the factor to
1/1.2⁴ = 625/1296 < 0.5, so the factor does not always stay within
[0.5, 5.0]. -/
theorem zoom_out_descends_below_half :
    (runZoom { initialState with has_image := true }
        [ZoomAct.zout, ZoomAct.zout, ZoomAct.zout, ZoomAct.zout]).zoom_factor
      = 625/1296 ∧
    (runZoom { initialState with has_image := true }
        [ZoomAct.zout, ZoomAct.zout, ZoomAct.zout, ZoomAct.zout]).zoom_factor
      < 1/2 ∧
    ({ initialState with has_image := true } : SessionState).zoom_factor = 1 := by
  have h : (runZoom { initialState with has_image := true }
      [ZoomAct.zout, ZoomAct.zout, ZoomAct.zout, ZoomAct.zout]).zoom_factor
      = 625/1296 := by
    norm_num [runZoom, applyZoom, zoom_out, initialState]
  refine ⟨h, ?_, rfl⟩
  rw [h]
  norm_num

/-! ### Marker column -/

/-- C7 (confirmed): for every playback position `0 ≤ p ≤ maxTime`,
every data-area mapping `(x0, width)` and every zoomed image width
`W' = int(W * zoomFactor)`, the marker pixel column computed by
`update_play_position` equals `x0*W' + (p / maxTime) * (width*W')`
(truncated to a pixel index) clamped to `[0, W'-1]`, exactly as the
specification words it. -/
theorem marker_column_matches_spec (p maxTime x0 width : ℚ) (W : ℤ) (z : ℚ)
    (hp0 : 0 ≤ p) (hp1 : p ≤ maxTime) :
    markerColumn p maxTime x0 width (scaledWidth W z)
      = markerColumnSpec p maxTime x0 width (scaledWidth W z) := by
  unfold markerColumn markerColumnSpec
  have h : p / maxTime * ((scaledWidth W z : ℚ) * width) + (scaledWidth W z : ℚ) * x0
      = x0 * (scaledWidth W z : ℚ) + p / maxTime * (width * (scaledWidth W z : ℚ)) := by
    ring
  rw [h]

/-- Witness for the C7 theorem at a concrete input. -/
theorem marker_column_matches_spec_witness :
    markerColumn 1 2 (1/10) (8/10) (scaledWidth 800 1)
      = markerColumnSpec 1 2 (1/10) (8/10) (scaledWidth 800 1) :=
  marker_column_matches_spec 1 2 (1/10) (8/10) 800 1 (by norm_num) (by norm_num)

/-! ### Playback controls with no file loaded -/

/-- C9 (amended): with no file loaded, play and pause (both served by
`toggle_playback`) are no-ops on the playback state that surface a
user-facing error box, while seek (`seek_position`) is a silent no-op:
it leaves the state unchanged but surfaces no user-facing error. -/
theorem no_file_controls_amended (st : SessionState) (now : ℚ)
    (trackStarted playOk : Bool) (v : ℤ) (busy seekOk : Bool)
    (h : st.audio_file = none) :
    toggle_playback st now trackStarted playOk = (st, some UiMsg.errNoFile)
      ∧ seek_position st v now busy seekOk = (st, none) := by
  constructor
  · unfold toggle_playback
    rw [if_pos h]
  · unfold seek_position
    rw [if_neg]
    intro hcon
    exact hcon.1 h

/-- Witness for the amended C9 theorem at a concrete input. -/
theorem no_file_controls_amended_witness :
    toggle_playback initialState 0 false true = (initialState, some UiMsg.errNoFile)
      ∧ seek_position initialState 500 0 true true = (initialState, none) :=
  no_file_controls_amended initialState 0 false true 500 true true rfl

/-- C9 (counterexample): the claim that seek with no file loaded
surfaces a user-facing error is false — `seek_position` falls through
its guard silently, returning the state unchanged and no error box. -/
theorem seek_without_file_is_silent :
    initialState.audio_file = none
      ∧ (seek_position initialState 500 0 true true).2 = none
      ∧ (seek_position initialState 500 0 true true).1 = initialState := by
  refine ⟨rfl, ?_, ?_⟩ <;>
    simp [seek_position, initialState]

/-! ### Position smoothing -/

/-- One playing, busy, in-range tick: the buffer gets the raw position
appended (oldest entry dropped beyond 5) and the played position
becomes the buffer mean; the guard fields are untouched. -/
lemma tick_step (st : SessionState) (raw : ℚ)
    (hp : st.is_playing = true) (hs : st.spectrogram ≠ none)
    (hi : st.has_image = true) (hraw : ¬ st.total_duration < raw) :
    (update_play_position st (st.play_start_time + raw) true).position_buffer
        = pushPos st.position_buffer raw
      ∧ (update_play_position st (st.play_start_time + raw) true).play_position
        = bufMean (pushPos st.position_buffer raw)
      ∧ (update_play_position st (st.play_start_time + raw) true).is_playing
        = st.is_playing
      ∧ (update_play_position st (st.play_start_time + raw) true).spectrogram
        = st.spectrogram
      ∧ (update_play_position st (st.play_start_time + raw) true).has_image
        = st.has_image
      ∧ (update_play_position st (st.play_start_time + raw) true).play_start_time
        = st.play_start_time
      ∧ (update_play_position st (st.play_start_time + raw) true).total_duration
        = st.total_duration := by
  unfold update_play_position
  have hg : st.is_playing ∧ st.spectrogram ≠ none ∧ st.has_image := by
    refine ⟨by rw [hp], hs, by rw [hi]⟩
  rw [if_pos hg, if_pos rfl]
  have hsub : st.play_start_time + raw - st.play_start_time = raw := by ring
  rw [hsub, if_neg hraw]
  by_cases hd : 0 < st.total_duration
  · rw [if_pos hd]
    exact ⟨rfl, rfl, rfl, rfl, rfl, rfl, rfl⟩
  · rw [if_neg hd]
    exact ⟨rfl, rfl, rfl, rfl, rfl, rfl, rfl⟩

/-- C8 (confirmed): the smoothing buffer never holds more than 5 raw
samples (the oldest is dropped first), after each tick the smoothed
position equals the arithmetic mean of the buffer contents, and if the
raw position signal is constant at `t` for 5 consecutive ticks the
smoothed position equals exactly `t`. -/
theorem smoothing_buffer_mean_and_convergence (st : SessionState) (t : ℚ)
    (hp : st.is_playing = true) (hs : st.spectrogram ≠ none)
    (hi : st.has_image = true) (hlen : st.position_buffer.length ≤ 5)
    (ht1 : t ≤ st.total_duration) :
    ((update_play_position st (st.play_start_time + t) true).position_buffer.length ≤ 5)
      ∧ ((update_play_position st (st.play_start_time + t) true).play_position
          = bufMean ((update_play_position st (st.play_start_time + t) true).position_buffer))
      ∧ (let tickC := fun s : SessionState =>
            update_play_position s (s.play_start_time + t) true
         (tickC (tickC (tickC (tickC (tickC st))))).play_position = t) := by
  have hraw : ¬ st.total_duration < t := not_lt.mpr ht1
  obtain ⟨hb1, hq1, hi1, hs1, hh1, hst1, hd1⟩ := tick_step st t hp hs hi hraw
  set st1 := update_play_position st (st.play_start_time + t) true with hst1def
  refine ⟨?_, ?_, ?_⟩
  · rw [hb1, pushPos_length]
    omega
  · rw [hq1, hb1]
  · simp only
    obtain ⟨hb2, hq2, hi2, hs2, hh2, hst2, hd2⟩ :=
      tick_step st1 t (by rw [hi1, hp]) (by rw [hs1]; exact hs)
        (by rw [hh1, hi]) (by rw [hd1]; exact hraw)
    set st2 := update_play_position st1 (st1.play_start_time + t) true with hst2def
    obtain ⟨hb3, hq3, hi3, hs3, hh3, hst3, hd3⟩ :=
      tick_step st2 t (by rw [hi2, hi1, hp]) (by rw [hs2, hs1]; exact hs)
        (by rw [hh2, hh1, hi]) (by rw [hd2, hd1]; exact hraw)
    set st3 := update_play_position st2 (st2.play_start_time + t) true with hst3def
    obtain ⟨hb4, hq4, hi4, hs4, hh4, hst4, hd4⟩ :=
      tick_step st3 t (by rw [hi3, hi2, hi1, hp]) (by rw [hs3, hs2, hs1]; exact hs)
        (by rw [hh3, hh2, hh1, hi]) (by rw [hd3, hd2, hd1]; exact hraw)
    set st4 := update_play_position st3 (st3.play_start_time + t) true with hst4def
    obtain ⟨hb5, hq5, hi5, hs5, hh5, hst5, hd5⟩ :=
      tick_step st4 t (by rw [hi4, hi3, hi2, hi1, hp]) (by rw [hs4, hs3, hs2, hs1]; exact hs)
        (by rw [hh4, hh3, hh2, hh1, hi]) (by rw [hd4, hd3, hd2, hd1]; exact hraw)
    rw [hq5, hb4, hb3, hb2, hb1, pushPos_five st.position_buffer t hlen,
      bufMean_replicate_five]

/-- A playing session state used as the concrete C8 witness input. -/
def c8state : SessionState :=
  { initialState with
    is_playing := true
    spectrogram := some [[0]]
    has_image := true
    total_duration := 3 }

/-- Witness for the C8 theorem at a concrete input. -/
theorem smoothing_buffer_mean_and_convergence_witness :
    ((update_play_position c8state (c8state.play_start_time + 2)
        true).position_buffer.length ≤ 5)
      ∧ ((update_play_position c8state (c8state.play_start_time + 2)
        true).play_position
          = bufMean ((update_play_position c8state (c8state.play_start_time + 2)
        true).position_buffer))
      ∧ (let tickC := fun s : SessionState =>
            update_play_position s (s.play_start_time + 2) true
         (tickC (tickC (tickC (tickC (tickC c8state))))).play_position = 2) :=
  smoothing_buffer_mean_and_convergence c8state
    2 rfl (by simp [c8state]) rfl (by simp [c8state, initialState]) (by norm_num [c8state])

/-! ### Concrete instantiations of the external numeric collaborators,
used by the concrete-input theorems.  `cfft` returns the magnitude
list of an all-zero windowed frame (length preserving, like
`np.abs(np.fft.fft(...))`), `chann` a constant window of the requested
length (like `np.hanning(M)` it has `M` entries). -/

def cfft : List ℚ → List ℚ := fun l => List.replicate l.length 0

def chann : ℤ → List ℚ := fun w => List.replicate w.toNat 1

lemma cfft_length (l : List ℚ) : (cfft l).length = l.length := by
  simp [cfft]

lemma chann_length (w : ℤ) (h : 0 < w) : (chann w).length = w.toNat := by
  simp [chann]

/-! ### Failed loads -/

/-- C5 (amended): when a load operation ends in an analysis failure —
which in this code is an exception escaping `process_full_audio`, since
the engine can never return an empty matrix normally — the previously
stored spectrogram matrix, time axis, frequency axis, duration, zoom
and image are left unchanged (the assignment raises before them), but
the loaded-file reference has already been overwritten with the new
path: the failed load does partially overwrite the session state, in
exactly that one field. -/
theorem failed_load_overwrites_only_file_reference
    (fftAbs : List ℚ → List ℚ) (hann : ℤ → List ℚ) (st : SessionState)
    (path : ℕ) (signal : List ℚ) (sample_rate : ℚ) (dataArea : ℚ × ℚ)
    (pygameOk : Bool) (e : PyErr)
    (he : process_full_audio fftAbs hann signal sample_rate 1024 512 4
        = .error e) :
    load_audio fftAbs hann st path signal sample_rate dataArea pygameOk
      = ({ st with audio_file := some path }, LoadOutcome.raised e) := by
  unfold load_audio load_audio_params
  rw [he]

/-- Witness for the amended C5 theorem at a concrete input. -/
theorem failed_load_overwrites_only_file_reference_witness :
    load_audio cfft chann initialState 2 [] 44100 (0, 1) true
      = ({ initialState with audio_file := some 2 }, LoadOutcome.raised PyErr.nameError) :=
  failed_load_overwrites_only_file_reference cfft chann initialState 2 [] 44100
    (0, 1) true PyErr.nameError
    (by
      have hcs : chunkSamples 4 44100 = 176400 := by norm_num [chunkSamples, pyInt]
      simp only [process_full_audio, hcs]
      decide)

/-- A previously loaded session, used as the C5 counterexample input. -/
def c5state : SessionState :=
  { initialState with
    audio_file := some 1
    spectrogram := some [[3]]
    time := some [0]
    freq := some [0]
    total_duration := 7
    has_image := true }

/-- C5 (counterexample): loading a file whose signal is empty ends in
an analysis failure (the engine raises `NameError`), yet the
loaded-file reference of the previous session is not left unchanged —
it now points at the failed file.  The claim that the failed load
leaves the stored session state (including the loaded-file reference)
untouched is therefore false. -/
theorem failed_load_changes_file_reference :
    c5state.audio_file = some 1
      ∧ (load_audio cfft chann c5state 2 [] 44100 (0, 1) true).1.audio_file = some 2
      ∧ (load_audio cfft chann c5state 2 [] 44100 (0, 1) true).2
          = LoadOutcome.raised PyErr.nameError := by
  have he : process_full_audio cfft chann [] 44100 1024 512 4
      = .error PyErr.nameError := by
    have hcs : chunkSamples 4 44100 = 176400 := by norm_num [chunkSamples, pyInt]
    simp only [process_full_audio, hcs]
    decide
  have h := failed_load_overwrites_only_file_reference cfft chann c5state 2 []
    44100 (0, 1) true PyErr.nameError he
  rw [h]
  exact ⟨rfl, rfl, rfl⟩

/-! ### Engine failure behaviour -/

/-- C6 (code bug): for an empty signal (at the application's real
parameters 44100 Hz, window 1024, hop 512, chunk 4 s), a signal
shorter than one window, a zero hop, a negative hop, and a negative
window, the engine does not return a reported analysis-failure result:
it raises an uncaught Python exception (`NameError` for the unassigned
`freq`, `ValueError` from `range`/FFT, `IndexError` from transposing
an empty frame list).  The caller's `spectrogram.size == 0` check in
`load_audio` — the intended analysis-failure report — is unreachable. -/
theorem engine_failures_raise_uncaught_exceptions :
    process_full_audio cfft chann [] 44100 1024 512 4 = .error PyErr.nameError
      ∧ process_full_audio cfft chann [0] 1 2 1 4 = .error PyErr.nameError
      ∧ process_full_audio cfft chann [0, 0] 1 2 0 4 = .error PyErr.valueError
      ∧ process_full_audio cfft chann [0, 0] 1 2 (-1) 4 = .error PyErr.indexError
      ∧ process_full_audio cfft chann [0, 0, 0] 1 (-2) 1 4 = .error PyErr.valueError := by
  have hcs1 : chunkSamples 4 44100 = 176400 := by norm_num [chunkSamples, pyInt]
  have hcs2 : chunkSamples 4 1 = 4 := by norm_num [chunkSamples, pyInt]
  refine ⟨?_, ?_, ?_, ?_, ?_⟩ <;> simp only [process_full_audio, hcs1, hcs2] <;> decide

lemma pyRange0_zero (step : ℤ) (h : 0 < step) : pyRange0 0 step = [] := by
  unfold pyRange0
  rw [pyRangeLen_zero step h]
  simp

lemma pyRange0_single (stop step : ℤ) (h1 : 1 ≤ stop) (h2 : stop ≤ step) :
    pyRange0 stop step = [0] := by
  unfold pyRange0
  rw [pyRangeLen_one stop step h1 h2,
    (by decide : List.range 1 = [0])]
  simp

/-- A chunk of exactly `window_size` samples produces an empty frame
list, so `standard_fft_spectrogram` hits the `IndexError` of
`np.array([]).T.shape[1]`. -/
lemma standard_exact_window (fftAbs : List ℚ → List ℚ) (hann : ℤ → List ℚ)
    (chunkL : List ℚ) (sr : ℚ) (W H : ℤ) (hH : 0 < H)
    (hlen : (chunkL.length : ℤ) = W) :
    standard_fft_spectrogram fftAbs hann chunkL sr W H = .error PyErr.indexError := by
  unfold standard_fft_spectrogram
  rw [if_neg (by omega : ¬ H = 0)]
  rw [hlen, sub_self, pyRange0_zero H hH]
  rfl

/-! ### Window-size boundary -/

/-- C3 (amended): with valid parameters (positive window and hop, the
window no larger than a chunk), a signal of exactly `windowSize`
samples does not yield a one-frame matrix: the frame loop emits no
frames (its `range` excludes the start `len - windowSize = 0`) and the
engine raises an uncaught `IndexError`; a signal shorter than
`windowSize` does not yield a reported analysis failure either — the
engine raises an uncaught `NameError`. -/
theorem exact_window_signal_amended (fftAbs : List ℚ → List ℚ)
    (hann : ℤ → List ℚ) (signal : List ℚ) (sr : ℚ) (W H : ℤ) (dur : ℚ)
    (hW : 0 < W) (hH : 0 < H) (hcs : W ≤ chunkSamples dur sr) :
    (signal.length = W.toNat →
      process_full_audio fftAbs hann signal sr W H dur = .error PyErr.indexError)
      ∧ ((signal.length : ℤ) < W →
      process_full_audio fftAbs hann signal sr W H dur = .error PyErr.nameError) := by
  have hcs0 : 0 < chunkSamples dur sr := lt_of_lt_of_le hW hcs
  constructor
  · intro hlen
    have hlenZ : (signal.length : ℤ) = W := by omega
    have h1 : (1 : ℤ) ≤ (signal.length : ℤ) := by omega
    unfold process_full_audio
    rw [if_neg (by omega : ¬ chunkSamples dur sr = 0),
      pyRange0_single _ _ h1 (by omega)]
    show process_chunks fftAbs hann signal sr W H (chunkSamples dur sr)
      [0] [] [] none = .error PyErr.indexError
    unfold process_chunks
    rw [zero_add, pySlice_all signal _ (by omega)]
    rw [if_neg (by omega : ¬ (signal.length : ℤ) < W)]
    rw [standard_exact_window fftAbs hann signal sr W H hH hlenZ]
  · intro hlt
    unfold process_full_audio
    rw [if_neg (by omega : ¬ chunkSamples dur sr = 0)]
    rcases Nat.eq_zero_or_pos signal.length with hz | hpos
    · rw [hz]
      push_cast
      rw [pyRange0_zero _ hcs0]
      rfl
    · have h1 : (1 : ℤ) ≤ (signal.length : ℤ) := by exact_mod_cast hpos
      rw [pyRange0_single _ _ h1 (by omega)]
      show process_chunks fftAbs hann signal sr W H (chunkSamples dur sr)
        [0] [] [] none = .error PyErr.nameError
      unfold process_chunks
      rw [zero_add, pySlice_all signal _ (by omega)]
      rw [if_pos hlt]

/-- Witness for the amended C3 theorem at a concrete input. -/
theorem exact_window_signal_amended_witness :
    process_full_audio cfft chann [0, 0] 1 2 1 4 = .error PyErr.indexError
      ∧ process_full_audio cfft chann [0] 1 2 1 4 = .error PyErr.nameError := by
  have hcs : (2:ℤ) ≤ chunkSamples 4 1 := by norm_num [chunkSamples, pyInt]
  exact ⟨(exact_window_signal_amended cfft chann [0, 0] 1 2 1 4
      (by norm_num) (by norm_num) hcs).1 rfl,
    (exact_window_signal_amended cfft chann [0] 1 2 1 4
      (by norm_num) (by norm_num) hcs).2 (by norm_num)⟩

/-- C3 (counterexample): a signal of exactly `windowSize` samples does
not yield a spectrogram matrix with at least one time frame — the
engine raises `IndexError` instead of returning any matrix at all
(here `windowSize = 2`, `hopSize = 1`, `sampleRate = 1`,
`chunkDuration = 4`, signal of 2 samples). -/
theorem exact_window_signal_yields_no_frames :
    ¬ ∃ (S : List (List ℚ)) (T F : List ℚ),
      process_full_audio cfft chann [0, 0] 1 2 1 4 = .ok (S, T, F)
        ∧ 1 ≤ timeFrames S := by
  rintro ⟨S, T, F, hok, -⟩
  have he : process_full_audio cfft chann [0, 0] 1 2 1 4 = .error PyErr.indexError := by
    have hcs : chunkSamples 4 1 = 4 := by norm_num [chunkSamples, pyInt]
    simp only [process_full_audio, hcs]
    decide
  rw [he] at hok
  exact Except.noConfusion hok

/-! ### Playback position bounds -/

lemma stop_playback_cases (st : SessionState) :
    stop_playback st
        = { st with is_playing := false, play_position := 0,
                    position_buffer := [], slider := 0 }
      ∨ stop_playback st = st := by
  unfold stop_playback
  by_cases h : st.audio_file ≠ none
  · left
    rw [if_pos h]
  · right
    rw [if_neg h]

/-- C10 (confirmed): after every successful load the playback
`total_duration` is set to the last value of the computed time axis
(`maxTime`), so the playback range and the analyzed range coincide;
and every per-tick update keeps `play_position` within
`[0, total_duration]` and the marker fraction
`play_position / total_duration` within `[0, 1]`. -/
theorem load_duration_is_max_time_and_position_bounded :
    (∀ (fftAbs : List ℚ → List ℚ) (hann : ℤ → List ℚ) (W H : ℤ) (dur : ℚ)
        (st : SessionState) (path : ℕ) (signal : List ℚ) (sr : ℚ)
        (da : ℚ × ℚ) (pygOk : Bool) (S : List (List ℚ)) (T F : List ℚ),
      process_full_audio fftAbs hann signal sr W H dur = .ok (S, T, F) →
      (load_audio_params fftAbs hann W H dur st path signal sr da pygOk).2
          = LoadOutcome.success →
      (load_audio_params fftAbs hann W H dur st path signal sr da pygOk).1.total_duration
          = T.getLastD 0)
      ∧ (∀ (st : SessionState) (now : ℚ) (busy : Bool),
      0 < st.total_duration →
      0 ≤ st.play_position → st.play_position ≤ st.total_duration →
      (∀ x ∈ st.position_buffer, 0 ≤ x ∧ x ≤ st.total_duration) →
      st.play_start_time ≤ now →
      0 ≤ (update_play_position st now busy).play_position
        ∧ (update_play_position st now busy).play_position ≤ st.total_duration
        ∧ 0 ≤ (update_play_position st now busy).play_position / st.total_duration
        ∧ (update_play_position st now busy).play_position / st.total_duration ≤ 1) := by
  constructor
  · intro fftAbs hann W H dur st path signal sr da pygOk S T F hok hsucc
    simp only [load_audio_params, hok] at hsucc ⊢
    by_cases h1 : npSize S = 0 ∨ T = []
    · rw [if_pos h1] at hsucc
      exact absurd hsucc (by simp)
    · rw [if_neg h1] at hsucc ⊢
      by_cases h2 : npSize S = 0 ∨ T = [] ∨ F = []
      · rw [if_pos h2] at hsucc
        exact absurd hsucc (by simp)
      · rw [if_neg h2] at hsucc ⊢
        cases pygOk with
        | true =>
          simp only [if_pos] at hsucc ⊢
        | false =>
          simp only [Bool.false_eq_true, if_false] at hsucc
          exact absurd hsucc (by simp)
  · intro st now busy hD hp0 hp1 hbuf hnow
    have hD0 : (0:ℚ) ≤ st.total_duration := le_of_lt hD
    have main : 0 ≤ (update_play_position st now busy).play_position
        ∧ (update_play_position st now busy).play_position ≤ st.total_duration := by
      unfold update_play_position
      by_cases hg : st.is_playing = true ∧ st.spectrogram ≠ none ∧ st.has_image = true
      · rw [if_pos hg]
        cases busy with
        | false =>
          simp only [Bool.false_eq_true, if_false]
          rcases stop_playback_cases st with h | h
          · rw [h]
            exact ⟨le_refl 0, hD0⟩
          · rw [h]
            exact ⟨hp0, hp1⟩
        | true =>
          simp only [if_true]
          by_cases hr : st.total_duration < now - st.play_start_time
          · rw [if_pos hr]
            rcases stop_playback_cases
                { st with play_position := st.total_duration } with h | h
            · rw [h]
              exact ⟨le_refl 0, hD0⟩
            · rw [h]
              exact ⟨hD0, le_refl _⟩
          · rw [if_neg hr]
            have hraw0 : 0 ≤ now - st.play_start_time := by linarith
            have hraw1 : now - st.play_start_time ≤ st.total_duration := not_lt.mp hr
            have hmem : ∀ x ∈ pushPos st.position_buffer (now - st.play_start_time),
                0 ≤ x ∧ x ≤ st.total_duration := by
              intro x hx
              rcases mem_pushPos _ _ _ hx with hxb | hxe
              · exact hbuf x hxb
              · rw [hxe]
                exact ⟨hraw0, hraw1⟩
            have hmean := bufMean_bounds _ (pushPos_ne_nil st.position_buffer _)
              0 st.total_duration hmem
            by_cases hd2 : 0 < st.total_duration
            · rw [if_pos hd2]
              exact hmean
            · rw [if_neg hd2]
              exact hmean
      · rw [if_neg hg]
        exact ⟨hp0, hp1⟩
    exact ⟨main.1, main.2, div_nonneg main.1 hD0, (div_le_one hD).mpr main.2⟩

/-- Concrete engine evaluation used by the C10 witness: a 3-sample
signal at unit sample rate, window 2, hop 1, chunk duration 4. -/
lemma small_engine_eval :
    process_full_audio cfft chann [0, 0, 0] 1 2 1 4 = .ok ([[0]], [0], [0]) := by
  have hcs : chunkSamples 4 1 = 4 := by norm_num [chunkSamples, pyInt]
  have hstarts : pyRange0 ((([0, 0, 0] : List ℚ).length : ℤ)) 4 = [0] := by decide
  have hstd : standard_fft_spectrogram cfft chann [0, 0, 0] 1 2 1
      = .ok ([[0]], [0], [0]) := by
    have hr : pyRange0 ((([0, 0, 0] : List ℚ).length : ℤ) - 2) 1 = [0] := by decide
    have ht2 : Int.toNat 2 / 2 = 1 := rfl
    have hf0 : List.take 1 (cfft (List.zipWith (fun a b => a * b)
        (pySlice [0, 0, 0] 0 2) (chann 2))) = [0] := by decide
    simp only [standard_fft_spectrogram, hr, ht2]
    norm_num [hf0, List.range_succ]
  have hsl : pySlice [0, 0, 0] 0 4 = [0, 0, 0] := by decide
  simp only [process_full_audio, hcs, hstarts]
  norm_num [process_chunks, hsl, hstd]

/-- A playing session state used as the concrete C10 witness input. -/
def c10state : SessionState :=
  { initialState with
    audio_file := some 1
    is_playing := true
    spectrogram := some [[0]]
    has_image := true
    total_duration := 3 }

/-- Witness for the C10 theorem at concrete inputs. -/
theorem load_duration_is_max_time_and_position_bounded_witness :
    ((load_audio_params cfft chann 2 1 4 initialState 1 [0, 0, 0] 1 (0, 1)
        true).1.total_duration = ([0] : List ℚ).getLastD 0)
      ∧ (0 ≤ (update_play_position c10state 1 true).play_position
        ∧ (update_play_position c10state 1 true).play_position ≤ c10state.total_duration
        ∧ 0 ≤ (update_play_position c10state 1 true).play_position / c10state.total_duration
        ∧ (update_play_position c10state 1 true).play_position / c10state.total_duration ≤ 1) := by
  constructor
  · refine load_duration_is_max_time_and_position_bounded.1 cfft chann 2 1 4
      initialState 1 [0, 0, 0] 1 (0, 1) true [[0]] [0] [0] small_engine_eval ?_
    simp only [load_audio_params, small_engine_eval]
    norm_num [npSize]
  · refine load_duration_is_max_time_and_position_bounded.2 c10state 1 true
      ?_ ?_ ?_ ?_ ?_
    · norm_num [c10state]
    · norm_num [c10state, initialState]
    · norm_num [c10state, initialState]
    · intro x hx
      simp [c10state, initialState] at hx
    · norm_num [c10state, initialState]

/-! ### Structure of the concatenated time axis -/

lemma chain_arith_map (c d B : ℚ) (hd : 0 < d) (hdB : d ≤ B) (n : ℕ) :
    List.Chain' (fun a b => a < b ∧ b - a ≤ B)
      ((List.range n).map (fun k : ℕ => (k : ℚ) * d + c)) := by
  rw [List.chain'_map, List.chain'_iff_get]
  intro i h
  simp only [List.get_range]
  constructor
  · push_cast
    nlinarith
  · push_cast
    nlinarith

lemma head?_range_map (f : ℕ → ℚ) (n : ℕ) (h : 0 < n) :
    ((List.range n).map f).head? = some (f 0) := by
  cases n with
  | zero => omega
  | succ m =>
    rw [List.range_succ_eq_map]
    simp

lemma getLast?_range_map (f : ℕ → ℚ) (n : ℕ) (h : 0 < n) :
    ((List.range n).map f).getLast? = some (f (n - 1)) := by
  cases n with
  | zero => omega
  | succ m =>
    rw [List.range_succ]
    simp [List.getLast?_concat]

/-- The successful run of `standard_fft_spectrogram` on a chunk
strictly longer than one window. -/
lemma standard_ok (fftAbs : List ℚ → List ℚ) (hann : ℤ → List ℚ)
    (chunkL : List ℚ) (sr : ℚ) (W H : ℤ) (hW : 0 < W) (hH : 0 < H)
    (hlen : W < (chunkL.length : ℤ)) :
    standard_fft_spectrogram fftAbs hann chunkL sr W H
      = .ok ((pyRange0 ((chunkL.length : ℤ) - W) H).map (fun s =>
              (fftAbs (List.zipWith (fun a b => a * b)
                (pySlice chunkL s (s + W)) (hann W))).take (W.toNat / 2)),
             (List.range (pyRangeLen ((chunkL.length : ℤ) - W) H)).map
               (fun k : ℕ => (k : ℚ) * ((H : ℚ) / sr)),
             (List.range (W.toNat / 2)).map
               (fun k : ℕ => (k : ℚ) * sr / (W : ℚ))) := by
  have hne : pyRange0 ((chunkL.length : ℤ) - W) H ≠ [] := by
    have hl := pyRange0_length ((chunkL.length : ℤ) - W) H
    have hpos := pyRangeLen_pos ((chunkL.length : ℤ) - W) H hH (by omega)
    intro hnil
    rw [hnil] at hl
    simp at hl
    omega
  have hfne : (pyRange0 ((chunkL.length : ℤ) - W) H).map (fun s =>
      (fftAbs (List.zipWith (fun a b => a * b)
        (pySlice chunkL s (s + W)) (hann W))).take (W.toNat / 2)) ≠ [] := by
    simpa using hne
  unfold standard_fft_spectrogram
  rw [if_neg (by omega : ¬ H = 0)]
  rw [if_neg (by
    intro hcon
    omega : ¬ (pyRange0 ((chunkL.length : ℤ) - W) H ≠ [] ∧ W ≤ 0))]
  rw [if_neg hfne, List.length_map, pyRange0_length]

/-- Invariant induction over the chunk loop: the accumulated time axis
is a chain of strictly increasing values whose consecutive gaps are at
most `(windowSize + hopSize) / sampleRate`, and the last accumulated
frame time lies within `(windowSize + hopSize)` samples before the
next chunk start.  The conclusion transfers the chain to the loop's
final time axis. -/
lemma process_chunks_time_chain (fftAbs : List ℚ → List ℚ)
    (hann : ℤ → List ℚ) (signal : List ℚ) (sr : ℚ) (W H cs : ℤ)
    (hsr : 0 < sr) (hW : 0 < W) (hH : 0 < H) (hWcs : W ≤ cs) :
    ∀ (m : ℕ) (i0 : ℤ) (accS : List (List ℚ)) (accT : List ℚ)
      (f? : Option (List ℚ)) (S : List (List ℚ)) (T F : List ℚ),
      0 ≤ i0 →
      (m ≠ 0 → i0 + ((m : ℤ) - 1) * cs < (signal.length : ℤ)) →
      List.Chain' (fun a b => a < b ∧ b - a ≤ ((W : ℚ) + (H : ℚ)) / sr) accT →
      (m ≠ 0 → ∀ t ∈ accT.getLast?,
        (i0 : ℚ) - ((W : ℚ) + (H : ℚ)) ≤ t * sr ∧ t * sr ≤ (i0 : ℚ) - (W : ℚ)) →
      process_chunks fftAbs hann signal sr W H cs
          ((List.range m).map (fun k : ℕ => i0 + (k : ℤ) * cs)) accS accT f?
        = .ok (S, T, F) →
      List.Chain' (fun a b => a < b ∧ b - a ≤ ((W : ℚ) + (H : ℚ)) / sr) T := by
  have hcs0 : 0 < cs := lt_of_lt_of_le hW hWcs
  have hWq : (0 : ℚ) < (W : ℚ) := by exact_mod_cast hW
  have hHq : (0 : ℚ) < (H : ℚ) := by exact_mod_cast hH
  intro m
  induction m with
  | zero =>
    intro i0 accS accT f? S T F hi0 hlast hchain hbridge hok
    simp only [List.range_zero, List.map_nil] at hok
    cases f? with
    | none => exact absurd hok (by simp [process_chunks])
    | some f =>
      simp only [process_chunks, Except.ok.injEq, Prod.mk.injEq] at hok
      rw [← hok.2.1]
      exact hchain
  | succ m' ih =>
    intro i0 accS accT f? S T F hi0 hlast hchain hbridge hok
    have hlist : (List.range (m' + 1)).map (fun k : ℕ => i0 + (k : ℤ) * cs)
        = i0 :: (List.range m').map (fun k : ℕ => (i0 + cs) + (k : ℤ) * cs) := by
      rw [List.range_succ_eq_map]
      simp only [List.map_cons, Nat.cast_zero, zero_mul, add_zero, List.map_map]
      congr 1
      apply List.map_congr_left
      intro k hk
      simp only [Function.comp_apply]
      push_cast
      ring
    rw [hlist] at hok
    have hi0lt : i0 < (signal.length : ℤ) := by
      have h1 := hlast (by omega)
      have h2 : (0 : ℤ) ≤ (m' : ℤ) * cs := by positivity
      push_cast at h1
      nlinarith
    have hchunk : ((pySlice signal i0 (i0 + cs)).length : ℤ)
        = min cs ((signal.length : ℤ) - i0) := by
      rw [pySlice_length signal i0 (i0 + cs) hi0 (by omega)]
      omega
    simp only [process_chunks] at hok
    by_cases hLW : ((pySlice signal i0 (i0 + cs)).length : ℤ) < W
    · rw [if_pos hLW] at hok
      cases f? with
      | none => exact absurd hok (by simp)
      | some f =>
        simp only [Except.ok.injEq, Prod.mk.injEq] at hok
        rw [← hok.2.1]
        exact hchain
    · rw [if_neg hLW] at hok
      rcases lt_or_eq_of_le (not_lt.mp hLW) with hWlt | hWeq
      · rw [standard_ok fftAbs hann _ sr W H hW hH hWlt] at hok
        set L : ℤ := ((pySlice signal i0 (i0 + cs)).length : ℤ) with hLdef
        set n : ℕ := pyRangeLen (L - W) H with hndef
        have hn1 : 1 ≤ n := pyRangeLen_pos (L - W) H hH (by omega)
        have hnspec := pyRangeLen_spec (L - W) H hH (by omega)
        dsimp only at hok
        have hshift : ((List.range n).map (fun k : ℕ => (k : ℚ) * ((H : ℚ) / sr))).map
              (fun x => x + (i0 : ℚ) / sr)
            = (List.range n).map (fun k : ℕ => (k : ℚ) * ((H : ℚ) / sr) + (i0 : ℚ) / sr) := by
          rw [List.map_map]
          apply List.map_congr_left
          intro k hk
          simp [Function.comp]
        rw [hshift] at hok
        have hd0 : (0 : ℚ) < (H : ℚ) / sr := by positivity
        have hdB : (H : ℚ) / sr ≤ ((W : ℚ) + (H : ℚ)) / sr :=
          (div_le_div_right hsr).mpr (by linarith)
        have hnewne : (List.range n).map
            (fun k : ℕ => (k : ℚ) * ((H : ℚ) / sr) + (i0 : ℚ) / sr) ≠ [] := by
          simp only [ne_eq, List.map_eq_nil_iff, List.range_eq_nil]
          omega
        refine ih (i0 + cs) _ _ _ S T F (by omega) ?_ ?_ ?_ hok
        · intro hm'
          have h := hlast (by omega)
          push_cast at h ⊢
          linarith
        · refine List.Chain'.append hchain
            (chain_arith_map ((i0 : ℚ) / sr) ((H : ℚ) / sr)
              (((W : ℚ) + (H : ℚ)) / sr) hd0 hdB n) ?_
          intro x hx y hy
          rw [head?_range_map _ n (by omega)] at hy
          simp only [Nat.cast_zero, zero_mul, zero_add, Option.mem_def,
            Option.some.injEq] at hy
          obtain ⟨hb1, hb2⟩ := hbridge (by omega) x hx
          subst hy
          constructor
          · rw [lt_div_iff hsr]
            push_cast at hb2 ⊢
            linarith
          · have hyx : (i0 : ℚ) / sr - x = ((i0 : ℚ) - x * sr) / sr := by
              field_simp
              ring
            rw [hyx]
            apply (div_le_div_right hsr).mpr
            push_cast at hb1 ⊢
            linarith
        · intro hm' t ht
          have hm1 : (1 : ℤ) ≤ (m' : ℤ) := by exact_mod_cast Nat.one_le_iff_ne_zero.mpr hm'
          have hLcs : L = cs := by
            have h := hlast (by omega)
            push_cast at h
            have hm : ((m' : ℤ) + 1 - 1) = (m' : ℤ) := by ring
            rw [hm] at h
            have hmul : (1 : ℤ) * cs ≤ (m' : ℤ) * cs :=
              mul_le_mul_of_nonneg_right hm1 (le_of_lt hcs0)
            have hlen2 : i0 + cs < (signal.length : ℤ) := by linarith
            omega
          rw [List.getLast?_append_of_ne_nil _ hnewne, getLast?_range_map _ n (by omega)] at ht
          simp only [Option.mem_def, Option.some.injEq] at ht
          subst ht
          have hcast : ((n - 1 : ℕ) : ℚ) = (n : ℚ) - 1 := by
            push_cast [Nat.cast_sub (by omega : 1 ≤ n)]
            try ring
          have htsr : (((n - 1 : ℕ) : ℚ) * ((H : ℚ) / sr) + (i0 : ℚ) / sr) * sr
              = ((n : ℚ) - 1) * (H : ℚ) + (i0 : ℚ) := by
            rw [hcast]
            field_simp
            try ring
          rw [htsr]
          obtain ⟨hs1, hs2⟩ := hnspec
          have hs1q : (L : ℚ) - (W : ℚ) ≤ (n : ℚ) * (H : ℚ) := by exact_mod_cast hs1
          have hs2q : ((n : ℚ) - 1) * (H : ℚ) < (L : ℚ) - (W : ℚ) := by exact_mod_cast hs2
          rw [hLcs] at hs1q hs2q
          push_cast
          constructor
          · nlinarith
          · nlinarith
      · exfalso
        rw [standard_exact_window fftAbs hann _ sr W H hH hWeq.symm] at hok
        exact Except.noConfusion hok

/-- C1 (amended): for valid parameters (positive window and hop, the
window no larger than a chunk) and any signal on which the engine
succeeds, the time axis is strictly increasing, but the bound on
consecutive gaps is `(windowSize + hopSize) / sampleRate`, not
`hopSize/sampleRate * 1.0001`: within a chunk consecutive frame times
differ by exactly `hopSize/sampleRate`, while across a chunk boundary
the dropped trailing frames leave a gap that can approach
`(windowSize + hopSize) / sampleRate`. -/
theorem time_axis_strictly_increasing_with_boundary_gap_bound
    (fftAbs : List ℚ → List ℚ) (hann : ℤ → List ℚ) (signal : List ℚ)
    (sr : ℚ) (W H : ℤ) (dur : ℚ) (hsr : 0 < sr) (hW : 0 < W) (hH : 0 < H)
    (hWcs : W ≤ chunkSamples dur sr) (S : List (List ℚ)) (T F : List ℚ)
    (hok : process_full_audio fftAbs hann signal sr W H dur = .ok (S, T, F)) :
    List.Chain' (fun a b => a < b ∧ b - a ≤ ((W : ℚ) + (H : ℚ)) / sr) T
      ∧ List.Pairwise (· < ·) T := by
  have hcs0 : 0 < chunkSamples dur sr := lt_of_lt_of_le hW hWcs
  unfold process_full_audio at hok
  rw [if_neg (by omega : ¬ chunkSamples dur sr = 0)] at hok
  have hl : pyRange0 ((signal.length : ℤ)) (chunkSamples dur sr)
      = (List.range (pyRangeLen (signal.length : ℤ) (chunkSamples dur sr))).map
          (fun k : ℕ => (0 : ℤ) + (k : ℤ) * chunkSamples dur sr) := by
    unfold pyRange0
    apply List.map_congr_left
    intro k hk
    ring
  rw [hl] at hok
  have hchain := process_chunks_time_chain fftAbs hann signal sr W H
    (chunkSamples dur sr) hsr hW hH hWcs
    (pyRangeLen (signal.length : ℤ) (chunkSamples dur sr)) 0 [] [] none S T F
    (le_refl 0)
    (by
      intro hm
      have hspec := pyRangeLen_spec (signal.length : ℤ) (chunkSamples dur sr)
        hcs0 (by positivity)
      linarith [hspec.2])
    List.chain'_nil
    (by
      intro _ t ht
      simp at ht)
    hok
  refine ⟨hchain, ?_⟩
  exact List.chain'_iff_pairwise.mp (hchain.imp (fun a b h => h.1))

/-- The C1 concrete input: 16 zero samples. -/
def sig16 : List ℚ := List.replicate 16 0

/-- Concrete engine evaluation used by the C1 theorems: unit sample
rate, window 4, hop 2, chunk duration 8 s over a 16-sample signal —
two chunks of 8 samples, two frames each, giving the time axis
`[0, 2, 8, 10]`. -/
lemma c1_engine_eval :
    process_full_audio cfft chann sig16 1 4 2 8
      = .ok ([[0, 0], [0, 0], [0, 0], [0, 0]], [0, 2, 8, 10], [0, 1/4]) := by
  have h1 : chunkSamples 8 1 = 8 := by norm_num [chunkSamples, pyInt]
  have h2 : pyRange0 ((sig16.length : ℤ)) 8 = [0, 8] := by decide
  have hs0 : pySlice sig16 0 8 = List.replicate 8 0 := by decide
  have hs1 : pySlice sig16 8 16 = List.replicate 8 0 := by decide
  have hstd : standard_fft_spectrogram cfft chann (List.replicate 8 0) 1 4 2
      = .ok ([[0, 0], [0, 0]], [0, 2], [0, 1/4]) := by
    have hr : pyRange0 (((List.replicate 8 (0:ℚ)).length : ℤ) - 4) 2 = [0, 2] := by
      decide
    have ht : Int.toNat 4 / 2 = 2 := rfl
    have hf0 : List.take 2 (cfft (List.zipWith (fun a b => a * b)
        (pySlice (List.replicate 8 0) 0 4) (chann 4))) = [0, 0] := by decide
    have hf1 : List.take 2 (cfft (List.zipWith (fun a b => a * b)
        (pySlice (List.replicate 8 0) 2 6) (chann 4))) = [0, 0] := by decide
    simp only [standard_fft_spectrogram, hr, ht]
    norm_num [hf0, hf1, List.range_succ]
    exact fun hx => absurd hx (by decide)
  simp only [process_full_audio, h1, h2, process_chunks]
  norm_num [hs0, hs1, hstd, List.range_succ]

/-- C1 (counterexample): at `sampleRate = 1`, `windowSize = 4`,
`hopSize = 2`, `chunkDuration = 8` and a 16-sample signal the computed
time axis is `[0, 2, 8, 10]`: the boundary step `8 - 2 = 6` exceeds
`hopSize/sampleRate * 1.0001 = 2.0002`, so the claimed gap bound is
false across chunk boundaries. -/
theorem time_axis_boundary_gap_exceeds_claimed_bound :
    ¬ ∃ (S : List (List ℚ)) (T F : List ℚ),
      process_full_audio cfft chann sig16 1 4 2 8 = .ok (S, T, F)
        ∧ List.Chain' (fun a b => a < b ∧ b - a ≤ (2 : ℚ) / 1 * (10001/10000)) T := by
  rintro ⟨S, T, F, hok, hch⟩
  rw [c1_engine_eval] at hok
  simp only [Except.ok.injEq, Prod.mk.injEq] at hok
  obtain ⟨-, hT, -⟩ := hok
  rw [← hT] at hch
  rw [List.chain'_cons, List.chain'_cons] at hch
  have := hch.2.1.2
  norm_num at this

/-- Witness for the amended C1 theorem at a concrete input. -/
theorem time_axis_strictly_increasing_with_boundary_gap_bound_witness :
    List.Chain' (fun a b : ℚ => a < b ∧ b - a ≤ (((4:ℤ) : ℚ) + ((2:ℤ) : ℚ)) / 1)
        [0, 2, 8, 10]
      ∧ List.Pairwise (· < · : ℚ → ℚ → Prop) [0, 2, 8, 10] :=
  time_axis_strictly_increasing_with_boundary_gap_bound cfft chann sig16 1 4 2 8
    (by norm_num) (by norm_num) (by norm_num)
    (by norm_num [chunkSamples, pyInt])
    [[0, 0], [0, 0], [0, 0], [0, 0]] [0, 2, 8, 10] [0, 1/4] c1_engine_eval

/-! ### Frame counts -/

/-- The number of time frames the chunk loop emits, written as the sum
over processed chunks of the *ceiling* `⌈(chunkSamples - windowSize) /
stepSize⌉` (the length of `range(0, chunkSamples - windowSize,
stepSize)`), mirroring the loop structure: chunks of `cs` samples
starting at `i0`, stopping at the first chunk shorter than a window. -/
def specFrameSum (len cs W H : ℤ) : ℕ → ℤ → ℕ
  | 0, _ => 0
  | m + 1, i0 =>
    let L : ℤ := max 0 (min (i0 + cs) len - i0)
    if L < W then 0
    else pyRangeLen (L - W) H + specFrameSum len cs W H m (i0 + cs)

/-- The specification's claimed frame count: the sum over processed
chunks of the *floor* `⌊(chunkSamples - windowSize) / stepSize⌋`. -/
def floorFrameSum (len cs W H : ℤ) : ℕ → ℤ → ℕ
  | 0, _ => 0
  | m + 1, i0 =>
    let L : ℤ := max 0 (min (i0 + cs) len - i0)
    if L < W then 0
    else ((L - W) / H).toNat + floorFrameSum len cs W H m (i0 + cs)

/-- Invariant induction over the chunk loop for the matrix dimensions:
the frame count adds up chunk by chunk as a ceiling-shaped sum, every
emitted frame holds exactly `windowSize/2` magnitude bins, and at
least one frame is emitted whenever the loop succeeds. -/
lemma process_chunks_count (fftAbs : List ℚ → List ℚ) (hann : ℤ → List ℚ)
    (signal : List ℚ) (sr : ℚ) (W H cs : ℤ)
    (hfft : ∀ l, (fftAbs l).length = l.length)
    (hhann : (hann W).length = W.toNat)
    (hW : 0 < W) (hH : 0 < H) (hWcs : W ≤ cs) :
    ∀ (m : ℕ) (i0 : ℤ) (accS : List (List ℚ)) (accT : List ℚ)
      (f? : Option (List ℚ)) (S : List (List ℚ)) (T F : List ℚ),
      0 ≤ i0 →
      (m ≠ 0 → i0 + ((m : ℤ) - 1) * cs < (signal.length : ℤ)) →
      process_chunks fftAbs hann signal sr W H cs
          ((List.range m).map (fun k : ℕ => i0 + (k : ℤ) * cs)) accS accT f?
        = .ok (S, T, F) →
      (S.length = accS.length + specFrameSum (signal.length : ℤ) cs W H m i0
        ∧ (∀ fr ∈ S, fr ∈ accS ∨ fr.length = W.toNat / 2)
        ∧ ((accS ≠ [] ∨ f? = none) → S ≠ [])) := by
  have hcs0 : 0 < cs := lt_of_lt_of_le hW hWcs
  intro m
  induction m with
  | zero =>
    intro i0 accS accT f? S T F hi0 hlast hok
    simp only [List.range_zero, List.map_nil] at hok
    cases f? with
    | none => exact absurd hok (by simp [process_chunks])
    | some f =>
      simp only [process_chunks, Except.ok.injEq, Prod.mk.injEq] at hok
      obtain ⟨hS, -, -⟩ := hok
      subst hS
      refine ⟨by simp [specFrameSum], fun fr hfr => Or.inl hfr, ?_⟩
      rintro (h | h)
      · exact h
      · exact absurd h (by simp)
  | succ m' ih =>
    intro i0 accS accT f? S T F hi0 hlast hok
    have hlist : (List.range (m' + 1)).map (fun k : ℕ => i0 + (k : ℤ) * cs)
        = i0 :: (List.range m').map (fun k : ℕ => (i0 + cs) + (k : ℤ) * cs) := by
      rw [List.range_succ_eq_map]
      simp only [List.map_cons, Nat.cast_zero, zero_mul, add_zero, List.map_map]
      congr 1
      apply List.map_congr_left
      intro k hk
      simp only [Function.comp_apply]
      push_cast
      ring
    rw [hlist] at hok
    have hi0lt : i0 < (signal.length : ℤ) := by
      have h1 := hlast (by omega)
      have h2 : (0 : ℤ) ≤ (m' : ℤ) * cs := by positivity
      push_cast at h1
      nlinarith
    have hchunk : ((pySlice signal i0 (i0 + cs)).length : ℤ)
        = min cs ((signal.length : ℤ) - i0) := by
      rw [pySlice_length signal i0 (i0 + cs) hi0 (by omega)]
      omega
    have hLspec : max 0 (min (i0 + cs) (signal.length : ℤ) - i0)
        = ((pySlice signal i0 (i0 + cs)).length : ℤ) := by
      rw [hchunk]
      omega
    simp only [process_chunks] at hok
    by_cases hLW : ((pySlice signal i0 (i0 + cs)).length : ℤ) < W
    · rw [if_pos hLW] at hok
      cases f? with
      | none => exact absurd hok (by simp)
      | some f =>
        simp only [Except.ok.injEq, Prod.mk.injEq] at hok
        obtain ⟨hS, -, -⟩ := hok
        subst hS
        have hsum : specFrameSum (signal.length : ℤ) cs W H (m' + 1) i0 = 0 := by
          simp only [specFrameSum]
          rw [hLspec, if_pos hLW]
        refine ⟨by rw [hsum]; omega, fun fr hfr => Or.inl hfr, ?_⟩
        rintro (h | h)
        · exact h
        · exact absurd h (by simp)
    · rw [if_neg hLW] at hok
      rcases lt_or_eq_of_le (not_lt.mp hLW) with hWlt | hWeq
      · rw [standard_ok fftAbs hann _ sr W H hW hH hWlt] at hok
        set L : ℤ := ((pySlice signal i0 (i0 + cs)).length : ℤ) with hLdef
        set n : ℕ := pyRangeLen (L - W) H with hndef
        have hn1 : 1 ≤ n := pyRangeLen_pos (L - W) H hH (by omega)
        have hnspec := pyRangeLen_spec (L - W) H hH (by omega)
        rw [← hndef] at hnspec
        dsimp only at hok
        have hfne : (pyRange0 (L - W) H).map (fun s =>
            (fftAbs (List.zipWith (fun a b => a * b)
              (pySlice (pySlice signal i0 (i0 + cs)) s (s + W)) (hann W))).take
              (W.toNat / 2)) ≠ [] := by
          simp only [ne_eq, List.map_eq_nil_iff]
          intro hnil
          have := pyRange0_length (L - W) H
          rw [hnil] at this
          simp at this
          omega
        obtain ⟨ihlen, ihmem, ihne⟩ := ih (i0 + cs) _ _ _ S T F (by omega)
          (by
            intro hm'
            have h := hlast (by omega)
            push_cast at h ⊢
            linarith)
          hok
        have hflen : ((pyRange0 (L - W) H).map (fun s =>
            (fftAbs (List.zipWith (fun a b => a * b)
              (pySlice (pySlice signal i0 (i0 + cs)) s (s + W)) (hann W))).take
              (W.toNat / 2))).length = n := by
          rw [List.length_map, pyRange0_length]
        have hsum : specFrameSum (signal.length : ℤ) cs W H (m' + 1) i0
            = n + specFrameSum (signal.length : ℤ) cs W H m' (i0 + cs) := by
          simp only [specFrameSum]
          rw [hLspec, if_neg hLW]
        refine ⟨?_, ?_, ?_⟩
        · rw [ihlen, List.length_append, hflen, hsum]
          omega
        · intro fr hfr
          rcases ihmem fr hfr with hacc | hlen2
          · rcases List.mem_append.mp hacc with h | h
            · exact Or.inl h
            · right
              obtain ⟨s, hs, hfr2⟩ := List.mem_map.mp h
              obtain ⟨k, hk, hks⟩ := (mem_pyRange0 (L - W) H s).mp hs
              have hs0 : 0 ≤ s := by
                rw [hks]
                positivity
              have hsW : s + W ≤ L := by
                have hkn : (k : ℤ) ≤ (n : ℤ) - 1 := by
                  have : (k : ℤ) < (n : ℤ) := by exact_mod_cast hk
                  omega
                have hmul : (k : ℤ) * H ≤ ((n : ℤ) - 1) * H :=
                  mul_le_mul_of_nonneg_right hkn (le_of_lt hH)
                have := hnspec.2
                rw [hks]
                omega
              have hslice : ((pySlice (pySlice signal i0 (i0 + cs)) s (s + W)).length : ℤ)
                  = W := by
                rw [pySlice_length _ s (s + W) hs0 (by omega)]
                rw [← hLdef]
                omega
              have hsliceN : (pySlice (pySlice signal i0 (i0 + cs)) s (s + W)).length
                  = W.toNat := by omega
              rw [← hfr2, List.length_take, hfft, List.length_zipWith, hsliceN, hhann]
              omega
          · exact Or.inr hlen2
        · intro hpre
          apply ihne
          left
          intro hnil
          rcases List.append_eq_nil.mp hnil with ⟨-, h2⟩
          exact hfne h2
      · exfalso
        rw [standard_exact_window fftAbs hann _ sr W H hH hWeq.symm] at hok
        exact Except.noConfusion hok

/-- C2 (amended): for every signal on which the engine succeeds (with
a length-preserving FFT and a window of the requested length, as NumPy
provides), the output matrix has `frequencyBins = windowSize/2` — but
`timeFrames` is the sum over processed chunks of the *ceiling*
`⌈(chunkSamples - windowSize)/stepSize⌉` (the length of
`range(0, chunkSamples - windowSize, stepSize)`), not the floor the
specification claims. -/
theorem matrix_dimensions_amended (fftAbs : List ℚ → List ℚ)
    (hann : ℤ → List ℚ) (signal : List ℚ) (sr : ℚ) (W H : ℤ) (dur : ℚ)
    (hfft : ∀ l, (fftAbs l).length = l.length)
    (hhann : (hann W).length = W.toNat)
    (hW : 0 < W) (hH : 0 < H) (hWcs : W ≤ chunkSamples dur sr)
    (S : List (List ℚ)) (T F : List ℚ)
    (hok : process_full_audio fftAbs hann signal sr W H dur = .ok (S, T, F)) :
    timeFrames S = specFrameSum (signal.length : ℤ) (chunkSamples dur sr) W H
        (pyRangeLen (signal.length : ℤ) (chunkSamples dur sr)) 0
      ∧ frequencyBins S = W.toNat / 2 := by
  have hcs0 : 0 < chunkSamples dur sr := lt_of_lt_of_le hW hWcs
  unfold process_full_audio at hok
  rw [if_neg (by omega : ¬ chunkSamples dur sr = 0)] at hok
  have hl : pyRange0 ((signal.length : ℤ)) (chunkSamples dur sr)
      = (List.range (pyRangeLen (signal.length : ℤ) (chunkSamples dur sr))).map
          (fun k : ℕ => (0 : ℤ) + (k : ℤ) * chunkSamples dur sr) := by
    unfold pyRange0
    apply List.map_congr_left
    intro k hk
    ring
  rw [hl] at hok
  obtain ⟨hlen, hmem, hne⟩ := process_chunks_count fftAbs hann signal sr W H
    (chunkSamples dur sr) hfft hhann hW hH hWcs
    (pyRangeLen (signal.length : ℤ) (chunkSamples dur sr)) 0 [] [] none S T F
    (le_refl 0)
    (by
      intro hm
      have hspec := pyRangeLen_spec (signal.length : ℤ) (chunkSamples dur sr)
        hcs0 (by positivity)
      linarith [hspec.2])
    hok
  have hSne : S ≠ [] := hne (Or.inr rfl)
  constructor
  · unfold timeFrames
    rw [hlen]
    simp
  · cases S with
    | nil => exact absurd rfl hSne
    | cons fr tl =>
      unfold frequencyBins
      rcases hmem fr (by simp) with h | h
      · exact absurd h (by simp)
      · exact h

/-- The C2 concrete input: 10 zero samples. -/
def sig10 : List ℚ := List.replicate 10 0

/-- Concrete engine evaluation used by the C2 counterexample: unit
sample rate, window 4, hop 4, chunk duration 16 s over a 10-sample
signal — one chunk, frame starts `range(0, 6, 4) = [0, 4]`, so 2
frames. -/
lemma c2_engine_eval :
    process_full_audio cfft chann sig10 1 4 4 16
      = .ok ([[0, 0], [0, 0]], [0, 4], [0, 1/4]) := by
  have h1 : chunkSamples 16 1 = 16 := by norm_num [chunkSamples, pyInt]
  have h2 : pyRange0 ((sig10.length : ℤ)) 16 = [0] := by decide
  have hs0 : pySlice sig10 0 16 = List.replicate 10 0 := by decide
  have hstd : standard_fft_spectrogram cfft chann (List.replicate 10 0) 1 4 4
      = .ok ([[0, 0], [0, 0]], [0, 4], [0, 1/4]) := by
    have hr : pyRange0 (((List.replicate 10 (0:ℚ)).length : ℤ) - 4) 4 = [0, 4] := by
      decide
    have ht : Int.toNat 4 / 2 = 2 := rfl
    have hf0 : List.take 2 (cfft (List.zipWith (fun a b => a * b)
        (pySlice (List.replicate 10 0) 0 4) (chann 4))) = [0, 0] := by decide
    have hf1 : List.take 2 (cfft (List.zipWith (fun a b => a * b)
        (pySlice (List.replicate 10 0) 4 8) (chann 4))) = [0, 0] := by decide
    simp only [standard_fft_spectrogram, hr, ht]
    norm_num [hf0, hf1, List.range_succ]
    exact fun hx => absurd hx (by decide)
  simp only [process_full_audio, h1, h2, process_chunks]
  norm_num [hs0, hstd, List.range_succ]

/-- C2 (counterexample): at `sampleRate = 1`, `windowSize = 4`,
`hopSize = 4`, `chunkDuration = 16` and a 10-sample signal the engine
emits 2 frames (`range(0, 6, 4)` has 2 elements), while the claimed
floor formula gives `⌊(10-4)/4⌋ = 1`. -/
theorem time_frames_contradict_floor_formula :
    ¬ ∃ (S : List (List ℚ)) (T F : List ℚ),
      process_full_audio cfft chann sig10 1 4 4 16 = .ok (S, T, F)
        ∧ timeFrames S = floorFrameSum ((sig10.length : ℤ)) (chunkSamples 16 1) 4 4
            (pyRangeLen ((sig10.length : ℤ)) (chunkSamples 16 1)) 0 := by
  rintro ⟨S, T, F, hok, hcount⟩
  rw [c2_engine_eval] at hok
  simp only [Except.ok.injEq, Prod.mk.injEq] at hok
  obtain ⟨hS, -, -⟩ := hok
  rw [← hS] at hcount
  have h1 : chunkSamples 16 1 = 16 := by norm_num [chunkSamples, pyInt]
  rw [h1] at hcount
  have h2 : floorFrameSum ((sig10.length : ℤ)) 16 4 4
      (pyRangeLen ((sig10.length : ℤ)) 16) 0 = 1 := by decide
  rw [h2] at hcount
  exact absurd hcount (by decide)

/-- Witness for the amended C2 theorem at a concrete input. -/
theorem matrix_dimensions_amended_witness :
    timeFrames [[0, 0], [0, 0], [0, 0], [0, 0]]
        = specFrameSum ((sig16.length : ℤ)) (chunkSamples 8 1) 4 2
            (pyRangeLen ((sig16.length : ℤ)) (chunkSamples 8 1)) 0
      ∧ frequencyBins [[0, 0], [0, 0], [0, 0], [0, 0]] = (4 : ℤ).toNat / 2 :=
  matrix_dimensions_amended cfft chann sig16 1 4 2 8 cfft_length
    (chann_length 4 (by norm_num)) (by norm_num) (by norm_num)
    (by norm_num [chunkSamples, pyInt])
    [[0, 0], [0, 0], [0, 0], [0, 0]] [0, 2, 8, 10] [0, 1/4] c1_engine_eval
